import Mathlib

/-!
# Verification of the IPAM allocation engine

A shallow embedding of the address-allocation core of the
`terraform-provider-github-ipam` repository (package `ipam` plus the
contiguous-allocation helpers of the allocation resource), restricted to
the IPv4 instance (address width 32): addresses are natural numbers below
`2^32`, and every place where the Go code computes in `uint32` is embedded
with an explicit `% 2^32`.

`net.ParseCIDR` is embedded over `CIDRText`, an abstract view of CIDR
strings: a well-formed dotted-quad text `"a.b.c.d/n"` is `CIDRText.cidr
addr n` (with `addr < 2^32` forced by the dotted-quad digit bounds and
`n ≤ 32` by the parser), everything else is `CIDRText.malformed`.  Parsing
masks the host bits, as `net.ParseCIDR` does.
-/

namespace Ipam

/-- `2^32`, the size of the IPv4 address space. -/
def U32 : Nat := 4294967296

/-- Go's `uint32(1) << k`: a shift by the full width or more yields `0`. -/
def goShl32 (k : Nat) : Nat := if 32 ≤ k then 0 else 2 ^ k

/-- Abstract view of a CIDR string, the input type of `net.ParseCIDR`. -/
inductive CIDRText where
  | cidr (addr : Nat) (ones : Nat)
  | malformed (raw : String)
deriving DecidableEq, Repr

/-- An IPv4 `net.IPNet`: network start address and prefix length. -/
structure IPNet where
  start : Nat
  ones : Nat
deriving DecidableEq, Repr

/-- `net.ParseCIDR` (IPv4 case): a well-formed `"a.b.c.d/n"` text with
`n ≤ 32` parses to the network whose start is the address with its host
bits masked off; everything else is a parse error. -/
def parseCIDR : CIDRText → Option IPNet
  | .cidr addr ones =>
      if addr < U32 ∧ ones ≤ 32 then
        some ⟨addr - addr % 2 ^ (32 - ones), ones⟩
      else none
  | .malformed _ => none

/-- The (mathematical) last address of a network: `start + 2^(32-ones) - 1`. -/
def lastAddr (n : IPNet) : Nat := n.start + 2 ^ (32 - n.ones) - 1

/-- `networksOverlap` (pools.go): computes inclusive range ends in `uint32`
arithmetic (`start + (1 << (bits-ones)) - 1`, wrapping) and tests
`aStart <= bEnd && bStart <= aEnd`. -/
def networksOverlap (a b : IPNet) : Bool :=
  let aStart := a.start
  let aEnd := (aStart + goShl32 (32 - a.ones) + (U32 - 1)) % U32
  let bStart := b.start
  let bEnd := (bStart + goShl32 (32 - b.ones) + (U32 - 1)) % U32
  decide (aStart ≤ bEnd) && decide (bStart ≤ aEnd)

theorem parseCIDR_sound {t : CIDRText} {n : IPNet} (h : parseCIDR t = some n) :
    n.ones ≤ 32 ∧ n.start < U32 ∧ n.start % 2 ^ (32 - n.ones) = 0 := by
  cases t with
  | malformed s => simp [parseCIDR] at h
  | cidr addr ones =>
    simp only [parseCIDR] at h
    split at h
    · rename_i hv
      cases h
      refine ⟨hv.2, ?_, ?_⟩
      · exact lt_of_le_of_lt (Nat.sub_le _ _) hv.1
      · have := Nat.mod_add_div addr (2 ^ (32 - ones))
        have hsub : addr - addr % 2 ^ (32 - ones)
            = 2 ^ (32 - ones) * (addr / 2 ^ (32 - ones)) := by omega
        simp [hsub, Nat.mul_mod_right]
    · exact absurd h (by simp)

/-- An aligned network below `2^32` has its last address below `2^32`:
the `uint32` end computation does not wrap. -/
theorem lastAddr_lt {n : IPNet} (hones : n.ones ≤ 32) (hlt : n.start < U32)
    (halign : n.start % 2 ^ (32 - n.ones) = 0) : lastAddr n < U32 := by
  have hdvd : 2 ^ (32 - n.ones) ∣ n.start := Nat.dvd_of_mod_eq_zero halign
  obtain ⟨k, hk⟩ := hdvd
  have hpow : (2 : Nat) ^ (32 - n.ones) * 2 ^ n.ones = U32 := by
    rw [← pow_add, Nat.sub_add_cancel hones]; rfl
  have hkb : k < 2 ^ n.ones := by
    by_contra hc
    push_neg at hc
    have : U32 ≤ n.start := by
      calc U32 = 2 ^ (32 - n.ones) * 2 ^ n.ones := hpow.symm
        _ ≤ 2 ^ (32 - n.ones) * k := Nat.mul_le_mul_left _ hc
        _ = n.start := hk.symm
    omega
  have hend : n.start + 2 ^ (32 - n.ones) ≤ U32 := by
    calc n.start + 2 ^ (32 - n.ones) = 2 ^ (32 - n.ones) * (k + 1) := by
          rw [hk]; ring
      _ ≤ 2 ^ (32 - n.ones) * 2 ^ n.ones := Nat.mul_le_mul_left _ hkb
      _ = U32 := hpow
  have hp : 0 < 2 ^ (32 - n.ones) := Nat.pos_pow_of_pos _ (by norm_num)
  have hgoal : n.start + 2 ^ (32 - n.ones) - 1 < U32 := by omega
  simpa [lastAddr] using hgoal

/-- The `uint32` end computation of `networksOverlap` equals the
mathematical last address for a parsed (hence valid, aligned) network. -/
theorem goEnd_eq_lastAddr {n : IPNet} (hones : n.ones ≤ 32) (hlt : n.start < U32)
    (halign : n.start % 2 ^ (32 - n.ones) = 0) :
    (n.start + goShl32 (32 - n.ones) + (U32 - 1)) % U32 = lastAddr n := by
  have hlast := lastAddr_lt hones hlt halign
  by_cases h0 : n.ones = 0
  · have hstart : n.start = 0 := by
      have h1 : n.start % 2 ^ (32 : Nat) = 0 := by simpa [h0] using halign
      have h2 : n.start < 4294967296 := by simpa [U32] using hlt
      omega
    simp only [goShl32, h0, Nat.sub_zero, le_refl, if_pos, hstart]
    show (0 + 0 + (U32 - 1)) % U32 = lastAddr n
    have : lastAddr n = U32 - 1 := by
      simp [lastAddr, h0, hstart]; norm_num [U32]
    rw [this]
    have : (0 + 0 + (U32 - 1)) = U32 - 1 := by omega
    rw [this]
    exact Nat.mod_eq_of_lt (by norm_num [U32])
  · have hk : ¬ 32 ≤ 32 - n.ones := by omega
    simp only [goShl32, if_neg hk]
    have hp : 0 < 2 ^ (32 - n.ones) := Nat.pos_pow_of_pos _ (by norm_num)
    have : n.start + 2 ^ (32 - n.ones) + (U32 - 1) = lastAddr n + U32 := by
      simp only [lastAddr]; omega
    rw [this, Nat.add_mod_right]
    exact Nat.mod_eq_of_lt hlast

/-- **C2.** For parsed networks, `networksOverlap` returns `true` exactly
when `startA ≤ endB` and `startB ≤ endA`, where the ends are the
mathematical (unsigned) last addresses — for every pair of prefix lengths,
not only when one range contains the other. -/
theorem networksOverlap_iff (ta tb : CIDRText) (a b : IPNet)
    (ha : parseCIDR ta = some a) (hb : parseCIDR tb = some b) :
    networksOverlap a b = true ↔ (a.start ≤ lastAddr b ∧ b.start ≤ lastAddr a) := by
  obtain ⟨haones, halt, haal⟩ := parseCIDR_sound ha
  obtain ⟨hbones, hblt, hbal⟩ := parseCIDR_sound hb
  simp only [networksOverlap, goEnd_eq_lastAddr haones halt haal,
    goEnd_eq_lastAddr hbones hblt hbal, Bool.and_eq_true, decide_eq_true_eq]

/-- Witness for C2 at concrete inputs `10.0.0.0/24` and `10.0.0.128/25`. -/
theorem networksOverlap_iff_witness :
    networksOverlap ⟨167772160, 24⟩ ⟨167772288, 25⟩ = true ↔
      ((167772160 : Nat) ≤ lastAddr ⟨167772288, 25⟩ ∧
       (167772288 : Nat) ≤ lastAddr ⟨167772160, 24⟩) :=
  networksOverlap_iff (.cidr 167772160 24) (.cidr 167772288 25)
    ⟨167772160, 24⟩ ⟨167772288, 25⟩ (by decide) (by decide)

/-! ## The allocation ledger entry type (allocations.go) -/

/-- `ipam.Allocation` with its CIDR in the abstract text form.  Go zero
values are the field defaults. -/
structure Allocation where
  CIDR : CIDRText
  ID : String := ""
  Name : String := ""
  ParentCIDR : Option String := none
  Metadata : List (String × String) := []
  CreatedAt : String := ""
deriving DecidableEq, Repr

/-- `ipam.PoolDefinition`: a list of CIDR texts plus descriptive fields. -/
structure PoolDefinition where
  CIDR : List CIDRText
  Description : String := ""
  Metadata : List (String × String) := []
  Reserved : Bool := false
deriving DecidableEq, Repr

/-! ## The next-available allocator (allocator.go) -/

/-- `net.IPNet.Contains` (IPv4): mask the address with the network mask and
compare with the network start. -/
def ipNetContains (n : IPNet) (ip : Nat) : Bool :=
  ip - ip % 2 ^ (32 - n.ones) == n.start

/-- `filterTopLevelAllocations`: keeps the allocations with no parent
reference. -/
def filterTopLevelAllocations : List Allocation → List Allocation
  | [] => []
  | alloc :: rest =>
    if alloc.ParentCIDR.isNone then alloc :: filterTopLevelAllocations rest
    else filterTopLevelAllocations rest

/-- `filterAllocationsInCIDR`: keeps the allocations whose CIDR parses and
whose (masked) start address is contained in the container; unparsable
entries are skipped silently. -/
def filterAllocationsInCIDR (allocations : List Allocation) (container : IPNet) :
    List Allocation :=
  match allocations with
  | [] => []
  | alloc :: rest =>
    match parseCIDR alloc.CIDR with
    | none => filterAllocationsInCIDR rest container
    | some allocNet =>
      if ipNetContains container allocNet.start then
        alloc :: filterAllocationsInCIDR rest container
      else filterAllocationsInCIDR rest container

/-- `alignToPrefix`: round an address up to the next multiple of the block
size `2^(32-prefixLen)`; a no-op on aligned addresses.  (The Go version
computes in a 16-byte big integer; an IPv4 round-up that passes the top of
the 32-bit space produces an address that fails every containment check,
exactly as the resulting non-IPv4-mappable address does in Go.) -/
def alignToPrefix (ip : Nat) (prefixLen : Nat) : Nat :=
  let bs := 2 ^ (32 - prefixLen)
  if ip % bs = 0 then ip else ip - ip % bs + bs

/-- Insertion step of the sort by network start address. -/
def insertNet (n : IPNet) : List IPNet → List IPNet
  | [] => [n]
  | m :: ms => if n.start < m.start then n :: m :: ms else m :: insertNet n ms

/-- `sort.Slice(sortable, ... compareIPs < 0)`: sort networks ascending by
start address (for IPv4, byte-wise `compareIPs` is unsigned numeric order). -/
def sortNetsByStart : List IPNet → List IPNet
  | [] => []
  | n :: ns => insertNet n (sortNetsByStart ns)

/-- Structured counterpart of the allocator error messages. -/
inductive AllocError where
  | invalidCIDR (t : CIDRText)
  | prefixTooLarge (requested containerOnes : Nat)
  | prefixTooSpecific (requested : Nat)
  | noSpace
deriving DecidableEq, Repr

/-- The gap-scan loop of `findNextInCIDR`, over the sorted existing
networks.  A candidate is accepted before an existing network when its
inclusive end is `<=` that network's start (the comparison the source
makes) and both candidate ends lie in the container; otherwise the
candidate advances to the aligned address just past the existing network.
After the scan the final candidate is checked against the container end. -/
def scanGap (container : IPNet) (prefixLen : Nat) :
    Nat → List IPNet → Except AllocError IPNet
  | candidate, [] =>
    let candidateEnd := candidate + 2 ^ (32 - prefixLen) - 1
    if ipNetContains container candidate && decide (candidateEnd ≤ lastAddr container)
    then .ok ⟨candidate, prefixLen⟩
    else .error .noSpace
  | candidate, e :: rest =>
    let candidateEnd := candidate + 2 ^ (32 - prefixLen) - 1
    if decide (candidateEnd ≤ e.start) && ipNetContains container candidate &&
        ipNetContains container candidateEnd
    then .ok ⟨candidate, prefixLen⟩
    else scanGap container prefixLen (alignToPrefix (lastAddr e + 1) prefixLen) rest

/-- `findNextInCIDR`: parse and validate the container, filter and sort the
existing allocations, then run the gap scan from the container start
aligned up to the requested prefix. -/
def findNextInCIDR (containerCIDR : CIDRText) (existingAllocations : List Allocation)
    (prefixLen : Nat) : Except AllocError IPNet :=
  match parseCIDR containerCIDR with
  | none => .error (.invalidCIDR containerCIDR)
  | some containerNet =>
    if prefixLen < containerNet.ones then
      .error (.prefixTooLarge prefixLen containerNet.ones)
    else if 32 < prefixLen then .error (.prefixTooSpecific prefixLen)
    else
      let relevant := filterAllocationsInCIDR existingAllocations containerNet
      let nets := relevant.filterMap fun a => parseCIDR a.CIDR
      scanGap containerNet prefixLen
        (alignToPrefix containerNet.start prefixLen) (sortNetsByStart nets)

/-- The per-range loop of `FindNextAvailableInPool`, accumulating one
skipped reason per failing range. -/
def poolScanLoop (topLevel : List Allocation) (prefixLen : Nat) :
    List CIDRText → List (CIDRText × AllocError) →
    Except (List (CIDRText × AllocError)) IPNet
  | [], skippedReasons => .error skippedReasons
  | c :: rest, skippedReasons =>
    match findNextInCIDR c topLevel prefixLen with
    | .ok r => .ok r
    | .error e => poolScanLoop topLevel prefixLen rest (skippedReasons ++ [(c, e)])

/-- `FindNextAvailableInPool` (Mode 1): try `findNextInCIDR` on each pool
range in order against the top-level allocations, returning the first
success, or the list of every range's rejection reason. -/
def FindNextAvailableInPool (poolDef : PoolDefinition)
    (existingAllocations : List Allocation) (prefixLen : Nat) :
    Except (List (CIDRText × AllocError)) IPNet :=
  poolScanLoop (filterTopLevelAllocations existingAllocations) prefixLen poolDef.CIDR []

/-- The summation loop of `CalculateAvailableSpace`: add up the block sizes
of the parsable entries, skipping unparsable ones. -/
def sumAllocSizes : List Allocation → Nat
  | [] => 0
  | alloc :: rest =>
    (match parseCIDR alloc.CIDR with
     | none => 0
     | some allocNet => 2 ^ (32 - allocNet.ones)) + sumAllocSizes rest

/-- `CalculateAvailableSpace`: the container's total address count minus
the sizes of the entries kept by `filterAllocationsInCIDR`, clamped at 0. -/
def CalculateAvailableSpace (containerCIDR : CIDRText)
    (allocations : List Allocation) : Except AllocError Nat :=
  match parseCIDR containerCIDR with
  | none => .error (.invalidCIDR containerCIDR)
  | some containerNet =>
    let totalAddresses := 2 ^ (32 - containerNet.ones)
    let allocated := sumAllocSizes (filterAllocationsInCIDR allocations containerNet)
    if totalAddresses < allocated then .ok 0 else .ok (totalAddresses - allocated)

/-! ## C1: the next-available result can overlap an existing entry -/

/-- **C1 (bug evaluation).** With container `10.0.0.0/24`, a single
existing allocation `10.0.0.0/32`, and a requested `/32`, `findNextInCIDR`
returns `10.0.0.0/32` — the very block that is already allocated (the gap
test compares the candidate's inclusive end with `<=` against the existing
start, so equality slips through). -/
theorem findNextInCIDR_overlap_bug :
    findNextInCIDR (.cidr 167772160 24) [{ CIDR := .cidr 167772160 32 }] 32
      = .ok ⟨167772160, 32⟩
    ∧ parseCIDR (CIDRText.cidr 167772160 32) = some ⟨167772160, 32⟩
    ∧ networksOverlap ⟨167772160, 32⟩ ⟨167772160, 32⟩ = true := by
  refine ⟨rfl, by decide, by decide⟩

/-! ## C4: which entries the gap scan considers -/

/-- **C4 (counterexample).** The gap scan does not consider exactly the
entries fully contained in the container: the entry `10.0.0.0/16` is not
fully contained in the container `10.0.0.0/24` (its last address exceeds
the container's), yet it is kept by the filter and blocks the whole
container — with it the search fails, without it the same request
succeeds. -/
theorem filterAllocationsInCIDR_not_full_containment :
    filterAllocationsInCIDR [{ CIDR := .cidr 167772160 16 }] ⟨167772160, 24⟩
      = [{ CIDR := .cidr 167772160 16 }]
    ∧ parseCIDR (CIDRText.cidr 167772160 16) = some ⟨167772160, 16⟩
    ∧ ¬ lastAddr ⟨167772160, 16⟩ ≤ lastAddr ⟨167772160, 24⟩
    ∧ findNextInCIDR (.cidr 167772160 24) [{ CIDR := .cidr 167772160 16 }] 24
      = .error .noSpace
    ∧ findNextInCIDR (.cidr 167772160 24) [] 24 = .ok ⟨167772160, 24⟩ := by
  refine ⟨rfl, by decide, by decide, rfl, rfl⟩

/-- **C4 (amended).** The gap scan considers exactly the parsable entries
whose masked start address lies in the container (whether or not they are
fully contained in it), and an unparsable entry is dropped silently: it
never changes the result of the search, in particular it never causes an
error on its own. -/
theorem filterAllocationsInCIDR_characterization
    (allocs : List Allocation) (container : IPNet) :
    (∀ a, a ∈ filterAllocationsInCIDR allocs container ↔
        a ∈ allocs ∧ ∃ n, parseCIDR a.CIDR = some n ∧
          ipNetContains container n.start = true)
    ∧ ∀ containerCIDR e prefixLen, parseCIDR e.CIDR = none →
        findNextInCIDR containerCIDR (e :: allocs) prefixLen
          = findNextInCIDR containerCIDR allocs prefixLen := by
  constructor
  · intro a
    induction allocs with
    | nil => simp [filterAllocationsInCIDR]
    | cons alloc rest ih =>
      cases hp : parseCIDR alloc.CIDR with
      | none =>
        simp only [filterAllocationsInCIDR, hp, ih, List.mem_cons]
        constructor
        · rintro ⟨hmem, n, hn, hc⟩; exact ⟨Or.inr hmem, n, hn, hc⟩
        · rintro ⟨(rfl | hmem), n, hn, hc⟩
          · rw [hp] at hn; cases hn
          · exact ⟨hmem, n, hn, hc⟩
      | some allocNet =>
        by_cases hc : ipNetContains container allocNet.start = true
        · simp only [filterAllocationsInCIDR, hp, if_pos hc, List.mem_cons, ih]
          constructor
          · rintro (rfl | ⟨hmem, n, hn, hcn⟩)
            · exact ⟨Or.inl rfl, allocNet, hp, hc⟩
            · exact ⟨Or.inr hmem, n, hn, hcn⟩
          · rintro ⟨(rfl | hmem), n, hn, hcn⟩
            · exact Or.inl rfl
            · exact Or.inr ⟨hmem, n, hn, hcn⟩
        · simp only [filterAllocationsInCIDR, hp, if_neg hc, ih, List.mem_cons]
          constructor
          · rintro ⟨hmem, n, hn, hcn⟩; exact ⟨Or.inr hmem, n, hn, hcn⟩
          · rintro ⟨(rfl | hmem), n, hn, hcn⟩
            · rw [hp] at hn; cases hn; exact absurd hcn hc
            · exact ⟨hmem, n, hn, hcn⟩
  · intro containerCIDR e prefixLen hpe
    cases hcc : parseCIDR containerCIDR with
    | none => simp [findNextInCIDR, hcc]
    | some containerNet =>
      simp [findNextInCIDR, hcc, filterAllocationsInCIDR, hpe]

/-- Witness for C4 (amended): a malformed entry leaves the search result
unchanged. -/
theorem filterAllocationsInCIDR_characterization_witness :
    findNextInCIDR (.cidr 167772160 24) [{ CIDR := .malformed "oops" }] 24
      = findNextInCIDR (.cidr 167772160 24) [] 24 :=
  (filterAllocationsInCIDR_characterization [] ⟨0, 0⟩).2
    (.cidr 167772160 24) { CIDR := .malformed "oops" } 24 (by decide)

/-! ## C5: available capacity -/

/-- Modelled from the spec's words (§4.4 availableCapacity), for
comparison with `CalculateAvailableSpace`: counts the sizes of the
parsable entries FULLY contained in the container (start and last address
both inside), ignores entries outside, and clamps at zero. -/
def sumContainedSizesSpec (container : IPNet) : List Allocation → Nat
  | [] => 0
  | a :: rest =>
    (match parseCIDR a.CIDR with
     | none => 0
     | some n =>
       if container.start ≤ n.start ∧ lastAddr n ≤ lastAddr container then
         2 ^ (32 - n.ones)
       else 0)
    + sumContainedSizesSpec container rest

/-- Modelled from the spec's words: `availableCapacity(container, existing)`. -/
def availableCapacitySpec (container : IPNet) (allocs : List Allocation) : Nat :=
  let total := 2 ^ (32 - container.ones)
  let allocated := sumContainedSizesSpec container allocs
  if total < allocated then 0 else total - allocated

/-- **C5 (counterexample).** For container `10.0.0.0/24` and the single
entry `10.0.0.0/16` — an entry NOT fully contained in the container —
`CalculateAvailableSpace` counts the oversized entry (its start is inside)
and clamps to 0, while the claim's formula ignores it and yields 256. -/
theorem CalculateAvailableSpace_spec_counterexample :
    CalculateAvailableSpace (.cidr 167772160 24) [{ CIDR := .cidr 167772160 16 }]
      = .ok 0
    ∧ availableCapacitySpec ⟨167772160, 24⟩ [{ CIDR := .cidr 167772160 16 }] = 256
    ∧ (Except.ok 0 : Except AllocError Nat) ≠ .ok 256 := by
  refine ⟨rfl, by decide, by simp⟩

/-- The sum the source accumulates over the filtered entries equals a
single pass that counts the parsable entries whose start is in the
container. -/
def sumStartContainedSizes (container : IPNet) : List Allocation → Nat
  | [] => 0
  | a :: rest =>
    (match parseCIDR a.CIDR with
     | none => 0
     | some n => if ipNetContains container n.start then 2 ^ (32 - n.ones) else 0)
    + sumStartContainedSizes container rest

theorem sumAllocSizes_filter (container : IPNet) (allocs : List Allocation) :
    sumAllocSizes (filterAllocationsInCIDR allocs container)
      = sumStartContainedSizes container allocs := by
  induction allocs with
  | nil => rfl
  | cons a rest ih =>
    cases hp : parseCIDR a.CIDR with
    | none => simp [filterAllocationsInCIDR, sumStartContainedSizes, hp, ih]
    | some n =>
      by_cases hc : ipNetContains container n.start = true
      · simp [filterAllocationsInCIDR, sumStartContainedSizes, sumAllocSizes, hp, hc, ih]
      · simp [filterAllocationsInCIDR, sumStartContainedSizes, hp, hc, ih]

/-- **C5 (amended).** For every parsable container,
`CalculateAvailableSpace` returns the container's total address count
minus the sizes of the parsable entries whose START address lies in the
container (entries whose start is outside are ignored, even when they
overlap it; entries extending beyond the container still count in full),
clamped at zero; in particular it returns the full total on an empty list
and 0 when the container itself is the only entry. -/
theorem CalculateAvailableSpace_amended (containerCIDR : CIDRText)
    (containerNet : IPNet) (allocs : List Allocation)
    (h : parseCIDR containerCIDR = some containerNet) :
    CalculateAvailableSpace containerCIDR allocs
      = .ok (2 ^ (32 - containerNet.ones)
          - min (2 ^ (32 - containerNet.ones)) (sumStartContainedSizes containerNet allocs))
    ∧ CalculateAvailableSpace containerCIDR [] = .ok (2 ^ (32 - containerNet.ones))
    ∧ CalculateAvailableSpace containerCIDR [{ CIDR := containerCIDR }] = .ok 0 := by
  have hgen : ∀ l : List Allocation,
      CalculateAvailableSpace containerCIDR l
        = .ok (2 ^ (32 - containerNet.ones)
            - min (2 ^ (32 - containerNet.ones)) (sumStartContainedSizes containerNet l)) := by
    intro l
    simp only [CalculateAvailableSpace, h, sumAllocSizes_filter]
    split
    · rename_i hlt
      have : min (2 ^ (32 - containerNet.ones)) (sumStartContainedSizes containerNet l)
          = 2 ^ (32 - containerNet.ones) := by omega
      rw [this]; simp
    · rename_i hge
      have : min (2 ^ (32 - containerNet.ones)) (sumStartContainedSizes containerNet l)
          = sumStartContainedSizes containerNet l := by omega
      rw [this]
  refine ⟨hgen allocs, ?_, ?_⟩
  · rw [hgen []]; simp [sumStartContainedSizes]
  · rw [hgen [{ CIDR := containerCIDR }]]
    obtain ⟨-, -, halign⟩ := parseCIDR_sound h
    have hcont : ipNetContains containerNet containerNet.start = true := by
      simp [ipNetContains, halign]
    simp [sumStartContainedSizes, h, hcont]

/-- Witness for C5 (amended) at container `10.0.0.0/24` with one `/25`
entry (the spec's scenario 6: 128 addresses remain). -/
theorem CalculateAvailableSpace_amended_witness :
    CalculateAvailableSpace (.cidr 167772160 24) [{ CIDR := .cidr 167772160 25 }]
      = .ok (2 ^ (32 - 24)
          - min (2 ^ (32 - 24)) (sumStartContainedSizes ⟨167772160, 24⟩
              [{ CIDR := .cidr 167772160 25 }]))
    ∧ CalculateAvailableSpace (.cidr 167772160 24) [] = .ok (2 ^ (32 - 24))
    ∧ CalculateAvailableSpace (.cidr 167772160 24) [{ CIDR := .cidr 167772160 24 }]
      = .ok 0 :=
  CalculateAvailableSpace_amended (.cidr 167772160 24) ⟨167772160, 24⟩
    [{ CIDR := .cidr 167772160 25 }] (by decide)

/-! ## Contiguous allocation (allocation_resource.go) -/

/-- Rejection reasons of `findContiguousCIDR`, one per message the source
formats. -/
inductive ContigReason where
  | outsidePool
  | overlapsExisting
  | misaligned
  | tooCloseToStart
deriving DecidableEq, Repr

/-- Errors of `findContiguousCIDR`. -/
inductive ContigError where
  | invalidTarget (t : CIDRText)
  | noSpace (beforeReason afterReason : ContigReason)
deriving DecidableEq, Repr

/-- `isInPool`: the candidate's inclusive `uint32` range must be fully
inside one of the pool's parsable ranges. -/
def isInPool (pool : PoolDefinition) (candidate : IPNet) : Bool :=
  pool.CIDR.any fun poolCIDR =>
    match parseCIDR poolCIDR with
    | none => false
    | some poolNet =>
      let candidateEnd := (candidate.start + goShl32 (32 - candidate.ones) + (U32 - 1)) % U32
      let poolEnd := (poolNet.start + goShl32 (32 - poolNet.ones) + (U32 - 1)) % U32
      decide (poolNet.start ≤ candidate.start) && decide (candidateEnd ≤ poolEnd)

/-- `overlapsAny`: the candidate against the parsable TOP-LEVEL entries
(entries with a parent reference are skipped), with EXCLUSIVE `uint32`
range ends `start + (1 << (32-ones))` — which wrap to 0 for a block
touching the top of the address space. -/
def overlapsAny (candidate : IPNet) (allocs : List Allocation) : Bool :=
  allocs.any fun alloc =>
    if alloc.ParentCIDR.isSome then false
    else
      match parseCIDR alloc.CIDR with
      | none => false
      | some allocNet =>
        let candidateEnd := (candidate.start + goShl32 (32 - candidate.ones)) % U32
        let allocEnd := (allocNet.start + goShl32 (32 - allocNet.ones)) % U32
        decide (candidate.start < allocEnd) && decide (allocNet.start < candidateEnd)

/-- `findContiguousCIDR`: of the two candidates adjacent to the target —
the aligned block immediately before `target.start`, then the aligned
block at `target.end` (exclusive, `uint32`) — return the first that is
aligned, inside the pool, and passes `overlapsAny`; otherwise report both
sides' reasons. -/
def findContiguousCIDR (pool : PoolDefinition) (allocs : List Allocation)
    (prefixLen : Nat) (targetCIDR : CIDRText) : Except ContigError IPNet :=
  match parseCIDR targetCIDR with
  | none => .error (.invalidTarget targetCIDR)
  | some targetNet =>
    let targetEnd := (targetNet.start + goShl32 (32 - targetNet.ones)) % U32
    let bs := goShl32 (32 - prefixLen)
    let beforeResult : Except ContigReason IPNet :=
      if bs ≤ targetNet.start then
        let beforeStart := targetNet.start - bs
        if beforeStart % bs = 0 then
          let candidate : IPNet := ⟨beforeStart, prefixLen⟩
          if !isInPool pool candidate then .error .outsidePool
          else if overlapsAny candidate allocs then .error .overlapsExisting
          else .ok candidate
        else .error .misaligned
      else .error .tooCloseToStart
    match beforeResult with
    | .ok c => .ok c
    | .error beforeReason =>
      let afterResult : Except ContigReason IPNet :=
        if targetEnd % bs = 0 then
          let candidate : IPNet := ⟨targetEnd, prefixLen⟩
          if !isInPool pool candidate then .error .outsidePool
          else if overlapsAny candidate allocs then .error .overlapsExisting
          else .ok candidate
        else .error .misaligned
      match afterResult with
      | .ok c => .ok c
      | .error afterReason => .error (.noSpace beforeReason afterReason)

/-- **C3 (bug evaluation).** Pool `255.255.255.0/24`, one TOP-LEVEL
existing allocation `255.255.255.128/25`, anchor `255.255.255.0/25`,
requested `/25`: the "after" candidate is `255.255.255.128/25` — the
existing allocation itself.  Its exclusive `uint32` end wraps to 0 at the
top of the address space, so `overlapsAny` fails to see the overlap and
the already-allocated block is returned.  (4294967040 = 255.255.255.0,
4294967168 = 255.255.255.128.) -/
theorem findContiguousCIDR_overlap_bug :
    findContiguousCIDR { CIDR := [.cidr 4294967040 24] }
        [{ CIDR := .cidr 4294967168 25 }] 25 (.cidr 4294967040 25)
      = .ok ⟨4294967168, 25⟩
    ∧ ({ CIDR := .cidr 4294967168 25 } : Allocation).ParentCIDR = none
    ∧ parseCIDR (CIDRText.cidr 4294967168 25) = some ⟨4294967168, 25⟩
    ∧ networksOverlap ⟨4294967168, 25⟩ ⟨4294967168, 25⟩ = true := by
  refine ⟨rfl, rfl, by decide, by decide⟩

/-! ## The allocation ledger (allocations.go): add and remove -/

/-- `ipam.AllocationsDatabase`.  The Go `map[string][]Allocation` is
embedded as an association list keyed by pool id (first match wins), so
that a pool id with an empty list and an absent pool id stay distinct,
exactly as for a Go map. -/
structure AllocationsDatabase where
  Version : String := "1.0"
  Allocations : List (String × List Allocation) := []
deriving DecidableEq, Repr

/-- Go map indexing `m[k]` (presence flavour): the value under the key. -/
def alistLookup : List (String × List Allocation) → String → Option (List Allocation)
  | [], _ => none
  | (k, v) :: rest, key => if k = key then some v else alistLookup rest key

/-- Go map assignment `m[k] = v`: replace the value under the key, or add
the key. -/
def alistSet : List (String × List Allocation) → String → List Allocation →
    List (String × List Allocation)
  | [], key, v => [(key, v)]
  | (k, w) :: rest, key, v =>
    if k = key then (k, v) :: rest else (k, w) :: alistSet rest key v

/-- `AddAllocation`: append to the pool's list, overwriting the entry's
`CreatedAt` with the current time (`time.Now().UTC().Format(RFC3339)`,
passed here explicitly as `now`). -/
def AddAllocation (d : AllocationsDatabase) (now : String) (poolID : String)
    (alloc : Allocation) : AllocationsDatabase :=
  let current := (alistLookup d.Allocations poolID).getD []
  let stamped := { alloc with CreatedAt := now }
  { d with Allocations := alistSet d.Allocations poolID (current ++ [stamped]) }

/-- Errors of `RemoveAllocation`, one per message the source formats. -/
inductive RemoveError where
  | poolHasNoAllocations (poolID : String)
  | allocationNotFound (allocID poolID : String)
deriving DecidableEq, Repr

/-- `RemoveAllocation`: filter out the entries with the given id from the
pool's list; error when the pool is absent or no entry matched.  The Go
method mutates the receiver and returns the error, so the embedding
returns the post-state paired with the optional error. -/
def RemoveAllocation (d : AllocationsDatabase) (poolID allocID : String) :
    AllocationsDatabase × Option RemoveError :=
  match alistLookup d.Allocations poolID with
  | none => (d, some (.poolHasNoAllocations poolID))
  | some allocations =>
    let newAllocations := allocations.filter fun alloc => !(alloc.ID == allocID)
    if allocations.all (fun alloc => !(alloc.ID == allocID)) then
      (d, some (.allocationNotFound allocID poolID))
    else
      ({ d with Allocations := alistSet d.Allocations poolID newAllocations }, none)

theorem alistLookup_alistSet_self (l : List (String × List Allocation))
    (key : String) (v : List Allocation) :
    alistLookup (alistSet l key v) key = some v := by
  induction l with
  | nil => simp [alistSet, alistLookup]
  | cons kv rest ih =>
    by_cases hk : kv.1 = key
    · simp [alistSet, alistLookup, hk]
    · simp [alistSet, alistLookup, hk, ih]

theorem alistLookup_alistSet_other (l : List (String × List Allocation))
    (key q : String) (v : List Allocation) (hq : q ≠ key) :
    alistLookup (alistSet l key v) q = alistLookup l q := by
  have hne : ¬ key = q := fun h => hq h.symm
  induction l with
  | nil => simp [alistSet, alistLookup, hne]
  | cons kv rest ih =>
    by_cases hk : kv.1 = key
    · subst hk
      simp [alistSet, alistLookup, hne]
    · by_cases hkq : kv.1 = q
      · simp [alistSet, alistLookup, hk, hkq, hq]
      · simp [alistSet, alistLookup, hk, hkq, ih]

/-- **C7.** Inserting an allocation stamps the stored `CreatedAt` with the
insert-time clock value unconditionally: the databases obtained from any
two caller-supplied timestamps are identical, and the pool's list gains
exactly the entry with `CreatedAt = now`. -/
theorem AddAllocation_stamps (d : AllocationsDatabase) (now poolID : String)
    (alloc : Allocation) (ts1 ts2 : String) :
    AddAllocation d now poolID { alloc with CreatedAt := ts1 }
      = AddAllocation d now poolID { alloc with CreatedAt := ts2 }
    ∧ alistLookup (AddAllocation d now poolID alloc).Allocations poolID
      = some ((alistLookup d.Allocations poolID).getD []
          ++ [{ alloc with CreatedAt := now }]) :=
  ⟨rfl, alistLookup_alistSet_self d.Allocations poolID _⟩

/-- **C10.** Removal either fails and leaves the database exactly as it
was (absent pool, or no entry with the id), or succeeds, deleting
precisely the entries with the given id from the given pool and leaving
every other pool untouched. -/
theorem RemoveAllocation_spec (d : AllocationsDatabase) (poolID allocID : String) :
    (∀ e, (RemoveAllocation d poolID allocID).2 = some e →
        (RemoveAllocation d poolID allocID).1 = d)
    ∧ ((RemoveAllocation d poolID allocID).2 = none →
        ∃ allocations, alistLookup d.Allocations poolID = some allocations ∧
          (∃ a ∈ allocations, a.ID = allocID) ∧
          alistLookup (RemoveAllocation d poolID allocID).1.Allocations poolID
            = some (allocations.filter fun a => !(a.ID == allocID)) ∧
          ∀ q, q ≠ poolID →
            alistLookup (RemoveAllocation d poolID allocID).1.Allocations q
              = alistLookup d.Allocations q) := by
  cases hl : alistLookup d.Allocations poolID with
  | none =>
    refine ⟨fun e _ => ?_, fun hnone => ?_⟩
    · simp [RemoveAllocation, hl]
    · simp [RemoveAllocation, hl] at hnone
  | some allocations =>
    cases hall : allocations.all (fun alloc => !(alloc.ID == allocID)) with
    | true =>
      refine ⟨fun e _ => ?_, fun hnone => ?_⟩
      · simp [RemoveAllocation, hl, hall]
      · simp [RemoveAllocation, hl, hall] at hnone
    | false =>
      have hres : RemoveAllocation d poolID allocID
          = ({ d with Allocations := (alistSet d.Allocations poolID
                  (allocations.filter fun alloc => !(alloc.ID == allocID))) }, none) := by
        simp [RemoveAllocation, hl, hall]
      refine ⟨fun e he => ?_, fun _ => ?_⟩
      · rw [hres] at he; cases he
      · refine ⟨allocations, rfl, ?_, ?_, ?_⟩
        · have := List.all_eq_false.mp hall
          obtain ⟨a, ha, hid⟩ := this
          refine ⟨a, ha, ?_⟩
          simpa using hid
        · rw [hres]
          exact alistLookup_alistSet_self _ _ _
        · intro q hq
          rw [hres]
          exact alistLookup_alistSet_other _ _ _ _ hq

/-- Witness for C10: removing from an empty database errors and leaves it
unchanged. -/
theorem RemoveAllocation_spec_witness :
    (RemoveAllocation { Allocations := [] } "prod" "id-1").1
      = { Allocations := [] } :=
  (RemoveAllocation_spec { Allocations := [] } "prod" "id-1").1
    (.poolHasNoAllocations "prod") rfl

/-! ## Address comparison (compareIPs over raw byte slices) -/

/-- The IPv4-in-IPv6 mapping bytes that `net.IP.To16` puts in front of a
4-byte address. -/
def v4InV6Prefix : List Nat := [0, 0, 0, 0, 0, 0, 0, 0, 0, 0, 255, 255]

/-- `net.IP.To16`: a 16-byte address unchanged, a 4-byte address mapped
into the IPv6 space, anything else `nil` (the empty slice). -/
def to16 (ip : List Nat) : List Nat :=
  if ip.length = 16 then ip
  else if ip.length = 4 then v4InV6Prefix ++ ip
  else []

/-- The byte loop of `compareIPs`: iterate over the first operand's bytes,
indexing the second at the same position.  An exhausted second operand
while the first still has bytes is an out-of-range index — the Go code
panics there, embedded as `none`. -/
def compareBytesGo : List Nat → List Nat → Option Int
  | [], _ => some 0
  | _ :: _, [] => none
  | x :: xs, y :: ys =>
    if x < y then some (-1) else if y < x then some 1 else compareBytesGo xs ys

/-- `compareIPs`: convert both operands with `To16` and compare byte-wise,
most significant byte first. -/
def compareIPs (a b : List Nat) : Option Int :=
  compareBytesGo (to16 a) (to16 b)

/-- The unsigned numeric value of a most-significant-first byte string. -/
def bytesToNat (l : List Nat) : Nat := l.foldl (fun acc d => acc * 256 + d) 0

/-- Three-way comparison of naturals as the `{-1,0,1}` result. -/
def cmpInt (x y : Nat) : Int := if x < y then -1 else if y < x then 1 else 0

theorem bytesToNat_foldl (xs : List Nat) (acc : Nat) :
    xs.foldl (fun a d => a * 256 + d) acc = acc * 256 ^ xs.length + bytesToNat xs := by
  induction xs generalizing acc with
  | nil => simp [bytesToNat]
  | cons d xs ih =>
    have hd : bytesToNat (d :: xs) = d * 256 ^ xs.length + bytesToNat xs := by
      have h0 : (0 : Nat) * 256 + d = d := by omega
      simp only [bytesToNat, List.foldl_cons, h0]
      rw [ih d]
      rfl
    simp only [List.foldl_cons, List.length_cons]
    rw [ih (acc * 256 + d), hd]
    ring

theorem bytesToNat_cons (d : Nat) (xs : List Nat) :
    bytesToNat (d :: xs) = d * 256 ^ xs.length + bytesToNat xs := by
  have h0 : (0 : Nat) * 256 + d = d := by omega
  simp only [bytesToNat, List.foldl_cons, h0]
  exact bytesToNat_foldl xs d

theorem bytesToNat_append (u v : List Nat) :
    bytesToNat (u ++ v) = bytesToNat u * 256 ^ v.length + bytesToNat v := by
  simp only [bytesToNat, List.foldl_append]
  rw [bytesToNat_foldl v (List.foldl (fun a d => a * 256 + d) 0 u)]
  rfl

theorem bytesToNat_lt (xs : List Nat) (h : ∀ x ∈ xs, x < 256) :
    bytesToNat xs < 256 ^ xs.length := by
  induction xs with
  | nil => simp [bytesToNat]
  | cons d xs ih =>
    have hd : bytesToNat (d :: xs) = d * 256 ^ xs.length + bytesToNat xs :=
      bytesToNat_cons d xs
    have hdb : d < 256 := h d (List.mem_cons_self d xs)
    have hxs : bytesToNat xs < 256 ^ xs.length :=
      ih fun x hx => h x (List.mem_cons_of_mem d hx)
    have hstep : d * 256 ^ xs.length + bytesToNat xs < (d + 1) * 256 ^ xs.length := by
      have := Nat.pos_pow_of_pos xs.length (show 0 < 256 by norm_num)
      calc d * 256 ^ xs.length + bytesToNat xs
          < d * 256 ^ xs.length + 256 ^ xs.length := by omega
        _ = (d + 1) * 256 ^ xs.length := by ring
    calc bytesToNat (d :: xs) = d * 256 ^ xs.length + bytesToNat xs := hd
      _ < (d + 1) * 256 ^ xs.length := hstep
      _ ≤ 256 * 256 ^ xs.length := Nat.mul_le_mul_right _ (by omega)
      _ = 256 ^ (d :: xs).length := by rw [List.length_cons]; ring

theorem cmpInt_add_left (c x y : Nat) : cmpInt (c + x) (c + y) = cmpInt x y := by
  rcases Nat.lt_trichotomy x y with h | h | h
  · simp [cmpInt, h, Nat.add_lt_add_left h c]
  · simp [cmpInt, h]
  · have h1 : ¬ x < y := by omega
    have h2 : ¬ c + x < c + y := by omega
    simp [cmpInt, h1, h2, h, Nat.add_lt_add_left h c]

theorem compareBytesGo_eq_cmp (xs ys : List Nat) (hlen : xs.length = ys.length)
    (hx : ∀ x ∈ xs, x < 256) (hy : ∀ y ∈ ys, y < 256) :
    compareBytesGo xs ys = some (cmpInt (bytesToNat xs) (bytesToNat ys)) := by
  induction xs generalizing ys with
  | nil =>
    cases ys with
    | nil => simp [compareBytesGo, bytesToNat, cmpInt]
    | cons y ys => simp at hlen
  | cons x xs ih =>
    cases ys with
    | nil => simp at hlen
    | cons y ys =>
      have hlen' : xs.length = ys.length := by simpa using hlen
      have hxb : x < 256 := hx x (List.mem_cons_self x xs)
      have hyb : y < 256 := hy y (List.mem_cons_self y ys)
      have hxs : ∀ a ∈ xs, a < 256 := fun a ha => hx a (List.mem_cons_of_mem x ha)
      have hys : ∀ a ∈ ys, a < 256 := fun a ha => hy a (List.mem_cons_of_mem y ha)
      have hxv : bytesToNat (x :: xs) = x * 256 ^ xs.length + bytesToNat xs :=
        bytesToNat_cons x xs
      have hyv : bytesToNat (y :: ys) = y * 256 ^ ys.length + bytesToNat ys :=
        bytesToNat_cons y ys
      have hxlt := bytesToNat_lt xs hxs
      have hylt := bytesToNat_lt ys hys
      by_cases h1 : x < y
      · have hno : bytesToNat (x :: xs) < bytesToNat (y :: ys) := by
          rw [hxv, hyv, ← hlen']
          calc x * 256 ^ xs.length + bytesToNat xs
              < x * 256 ^ xs.length + 256 ^ xs.length := by omega
            _ = (x + 1) * 256 ^ xs.length := by ring
            _ ≤ y * 256 ^ xs.length := Nat.mul_le_mul_right _ (by omega)
            _ ≤ y * 256 ^ xs.length + bytesToNat ys := Nat.le_add_right _ _
        simp [compareBytesGo, h1, cmpInt, hno]
      · by_cases h2 : y < x
        · have hno : bytesToNat (y :: ys) < bytesToNat (x :: xs) := by
            rw [hxv, hyv, hlen']
            calc y * 256 ^ ys.length + bytesToNat ys
                < y * 256 ^ ys.length + 256 ^ ys.length := by omega
              _ = (y + 1) * 256 ^ ys.length := by ring
              _ ≤ x * 256 ^ ys.length := Nat.mul_le_mul_right _ (by omega)
              _ ≤ x * 256 ^ ys.length + bytesToNat xs := Nat.le_add_right _ _
          have hnlt : ¬ bytesToNat (x :: xs) < bytesToNat (y :: ys) := by omega
          simp [compareBytesGo, h1, h2, cmpInt, hno, hnlt]
        · have hxy : x = y := by omega
          subst hxy
          have : cmpInt (bytesToNat (x :: xs)) (bytesToNat (x :: ys))
              = cmpInt (bytesToNat xs) (bytesToNat ys) := by
            rw [hxv, hyv, ← hlen']
            exact cmpInt_add_left (x * 256 ^ xs.length) _ _
          simp only [compareBytesGo, h1, if_neg h1, lt_irrefl, if_neg (lt_irrefl x), this]
          exact ih ys hlen' hxs hys

/-- **C8 (counterexample).** The operands `10.0.0.0` (4 bytes) and `::1`
(16 bytes) do not share an address width, yet `compareIPs` does not fail:
it returns the ordering `1` (the IPv4-mapped form sorts above `::1`). -/
theorem compareIPs_mixed_width_counterexample :
    ([10, 0, 0, 0] : List Nat).length
      ≠ ([0, 0, 0, 0, 0, 0, 0, 0, 0, 0, 0, 0, 0, 0, 0, 1] : List Nat).length
    ∧ compareIPs [10, 0, 0, 0] [0, 0, 0, 0, 0, 0, 0, 0, 0, 0, 0, 0, 0, 0, 0, 1]
      = some 1 := by
  refine ⟨by decide, rfl⟩

/-- **C8 (amended).** For operands of valid address widths (4 or 16
bytes, bytes below 256), `compareIPs` always returns an ordering — the
`{-1,0,1}` three-way comparison of the unsigned values of the operands'
16-byte canonical forms; in particular, when the operands share the same
width, it is exactly the unsigned most-significant-byte-first order of the
raw operands.  Mixed 4- and 16-byte operands are compared after
IPv4-mapping rather than failing. -/
theorem compareIPs_ordering (a b : List Nat)
    (hwa : a.length = 4 ∨ a.length = 16) (hwb : b.length = 4 ∨ b.length = 16)
    (ha : ∀ x ∈ a, x < 256) (hb : ∀ x ∈ b, x < 256) :
    compareIPs a b = some (cmpInt (bytesToNat (to16 a)) (bytesToNat (to16 b)))
    ∧ (a.length = b.length →
        compareIPs a b = some (cmpInt (bytesToNat a) (bytesToNat b))) := by
  have hpre : ∀ x ∈ v4InV6Prefix, x < 256 := by decide
  have hto16 : ∀ (l : List Nat), l.length = 4 ∨ l.length = 16 →
      (∀ x ∈ l, x < 256) →
      (to16 l).length = 16 ∧ ∀ x ∈ to16 l, x < 256 := by
    intro l hw hl
    rcases hw with h4 | h16
    · have hne : ¬ l.length = 16 := by omega
      constructor
      · simp [to16, hne, h4, v4InV6Prefix]
      · intro x hx
        rw [to16, if_neg hne, if_pos h4] at hx
        rcases List.mem_append.mp hx with hx | hx
        · exact hpre x hx
        · exact hl x hx
    · refine ⟨by simp [to16, h16], ?_⟩
      intro x hx
      rw [to16, if_pos h16] at hx
      exact hl x hx
  obtain ⟨hla, hba⟩ := hto16 a hwa ha
  obtain ⟨hlb, hbb⟩ := hto16 b hwb hb
  have hmain : compareIPs a b
      = some (cmpInt (bytesToNat (to16 a)) (bytesToNat (to16 b))) :=
    compareBytesGo_eq_cmp (to16 a) (to16 b) (by omega) hba hbb
  refine ⟨hmain, fun hlen => ?_⟩
  rcases hwa with h4 | h16
  · have hb4 : b.length = 4 := by omega
    have hnea : ¬ a.length = 16 := by omega
    have hneb : ¬ b.length = 16 := by omega
    have hta : to16 a = v4InV6Prefix ++ a := by simp [to16, hnea, h4]
    have htb : to16 b = v4InV6Prefix ++ b := by simp [to16, hneb, hb4]
    rw [hmain, hta, htb, bytesToNat_append, bytesToNat_append, h4, hb4,
      cmpInt_add_left]
  · have hb16 : b.length = 16 := by omega
    have hta : to16 a = a := by simp [to16, h16]
    have htb : to16 b = b := by simp [to16, hb16]
    rw [hmain, hta, htb]

/-- Witness for C8 (amended): two 4-byte addresses compare by unsigned
value. -/
theorem compareIPs_ordering_witness :
    compareIPs [10, 0, 0, 0] [10, 0, 0, 1]
      = some (cmpInt (bytesToNat [10, 0, 0, 0]) (bytesToNat [10, 0, 0, 1])) :=
  (compareIPs_ordering [10, 0, 0, 0] [10, 0, 0, 1] (Or.inl rfl) (Or.inl rfl)
    (by decide) (by decide)).2 rfl

/-! ## C6 and C9: the per-range pool scan -/

theorem poolScanLoop_all_error (topLevel : List Allocation) (prefixLen : Nat)
    (cs : List CIDRText) (f : CIDRText → AllocError)
    (h : ∀ c ∈ cs, findNextInCIDR c topLevel prefixLen = .error (f c)) :
    ∀ acc, poolScanLoop topLevel prefixLen cs acc
      = .error (acc ++ cs.map fun c => (c, f c)) := by
  induction cs with
  | nil => intro acc; simp [poolScanLoop]
  | cons c rest ih =>
    intro acc
    have hc : findNextInCIDR c topLevel prefixLen = .error (f c) :=
      h c (List.mem_cons_self c rest)
    have hrest : ∀ q ∈ rest, findNextInCIDR q topLevel prefixLen = .error (f q) :=
      fun q hq => h q (List.mem_cons_of_mem c hq)
    simp only [poolScanLoop, hc]
    rw [ih hrest (acc ++ [(c, f c)])]
    simp

theorem poolScanLoop_ok (topLevel : List Allocation) (prefixLen : Nat) :
    ∀ (cs : List CIDRText) (acc : List (CIDRText × AllocError)) (r : IPNet),
    poolScanLoop topLevel prefixLen cs acc = .ok r →
    ∃ pre c post, cs = pre ++ c :: post ∧
      (∀ q ∈ pre, ∃ e, findNextInCIDR q topLevel prefixLen = .error e) ∧
      findNextInCIDR c topLevel prefixLen = .ok r := by
  intro cs
  induction cs with
  | nil => intro acc r h; simp [poolScanLoop] at h
  | cons c rest ih =>
    intro acc r h
    cases hc : findNextInCIDR c topLevel prefixLen with
    | ok r2 =>
      have : r2 = r := by
        simp only [poolScanLoop, hc] at h
        exact (Except.ok.injEq _ _).mp h
      subst this
      exact ⟨[], c, rest, rfl, by simp, hc⟩
    | error e =>
      simp only [poolScanLoop, hc] at h
      obtain ⟨pre, c2, post, heq, hpre, hok⟩ := ih _ r h
      refine ⟨c :: pre, c2, post, by rw [heq]; rfl, ?_, hok⟩
      intro q hq
      rcases List.mem_cons.mp hq with rfl | hq
      · exact ⟨e, hc⟩
      · exact hpre q hq

/-- **C6.** For every pool with more than one range, the search runs the
whole single-range procedure (`findNextInCIDR`, against the top-level
allocations) on each range in the pool's listed order: a success is the
result of the first range on which the procedure succeeds, every earlier
range having failed; and when every range fails, the error carries one
rejection reason per range, in order. -/
theorem FindNextAvailableInPool_per_range (poolDef : PoolDefinition)
    (existingAllocations : List Allocation) (prefixLen : Nat)
    (hmulti : 1 < poolDef.CIDR.length) :
    (∀ f : CIDRText → AllocError,
        (∀ c ∈ poolDef.CIDR,
            findNextInCIDR c (filterTopLevelAllocations existingAllocations) prefixLen
              = .error (f c)) →
        FindNextAvailableInPool poolDef existingAllocations prefixLen
          = .error (poolDef.CIDR.map fun c => (c, f c)))
    ∧ (∀ r, FindNextAvailableInPool poolDef existingAllocations prefixLen = .ok r →
        ∃ pre c post, poolDef.CIDR = pre ++ c :: post ∧
          (∀ q ∈ pre, ∃ e,
              findNextInCIDR q (filterTopLevelAllocations existingAllocations) prefixLen
                = .error e) ∧
          findNextInCIDR c (filterTopLevelAllocations existingAllocations) prefixLen
            = .ok r) := by
  constructor
  · intro f hf
    have := poolScanLoop_all_error (filterTopLevelAllocations existingAllocations)
      prefixLen poolDef.CIDR f hf []
    simpa [FindNextAvailableInPool] using this
  · intro r hr
    exact poolScanLoop_ok (filterTopLevelAllocations existingAllocations)
      prefixLen poolDef.CIDR [] r hr

/-- Witness for C6: a two-range pool where a too-large request fails on
both ranges, yielding both reasons. -/
theorem FindNextAvailableInPool_per_range_witness :
    FindNextAvailableInPool { CIDR := [.cidr 167772160 30, .cidr 167772164 30] } [] 29
      = .error ([.cidr 167772160 30, .cidr 167772164 30].map
          fun c => (c, AllocError.prefixTooLarge 29 30)) :=
  (FindNextAvailableInPool_per_range { CIDR := [.cidr 167772160 30, .cidr 167772164 30] }
      [] 29 (by decide)).1
    (fun _ => .prefixTooLarge 29 30)
    (by
      intro c hc
      fin_cases hc <;> rfl)

/-- **C9.** Pool-mode allocation ignores sub-allocations: removing every
entry with a parent reference from the existing list leaves the result of
`FindNextAvailableInPool` unchanged. -/
theorem FindNextAvailableInPool_parent_invariant (poolDef : PoolDefinition)
    (existingAllocations : List Allocation) (prefixLen : Nat) :
    FindNextAvailableInPool poolDef existingAllocations prefixLen
      = FindNextAvailableInPool poolDef
          (existingAllocations.filter fun a => a.ParentCIDR.isNone) prefixLen := by
  have hft : filterTopLevelAllocations
        (existingAllocations.filter fun a => a.ParentCIDR.isNone)
      = filterTopLevelAllocations existingAllocations := by
    induction existingAllocations with
    | nil => rfl
    | cons a rest ih =>
      cases hp : a.ParentCIDR.isNone with
      | true => simp [filterTopLevelAllocations, List.filter_cons, hp, ih]
      | false => simp [filterTopLevelAllocations, List.filter_cons, hp, ih]
  simp [FindNextAvailableInPool, hft]

end Ipam
